import Mathlib

/-!
Verification development for the realtime-whiteboard synchronization and
recovery engine.

The definitions below are a shallow embedding of the server-side sync engine
(`server.js`) and the offline restore tool (`tools/restore.js`):

* `nextBoardSeq`      — the per-board sequence allocator (Counter collection,
                        `findOneAndUpdate` with `$inc` and `upsert`);
* `insertItem` / `insertItems` / `maybeCheckpoint` / `txnBoardOps` /
  `boardOpsHandler`   — the `board:ops` socket handler (role check, broadcast,
                        persistence buffer, and the durable transaction);
* `mergeOps` / `enqueuePersist` — the in-memory persistence buffer and its
                        flush-time merge policy;
* `addMemberRoute` / `patchMemberRoute` / `deleteMemberRoute` — the board
                        membership REST routes;
* `restore`           — the restore tool (`tools/restore.js main`).

Opaque JSON blobs (tldraw snapshots, operation payload bodies) are modelled as
`String`s; MongoDB ObjectIds and user ids as `String`s; collections as Lean
lists in insertion order.  Absent (or JavaScript-falsy) fields are modelled as
`Option.none`.  Timestamps (`Date.now()` and schema defaults) are threaded
explicitly as a `now : Nat` argument.
-/

/-- Roles a board member can have (`boardSchema.members.role` enum). -/
inductive Role where
  | owner
  | editor
  | viewer
deriving DecidableEq, Repr, BEq

/-- A `(userId, role)` board membership entry. -/
structure Member where
  userId : String
  role : Role
deriving DecidableEq, Repr

/-- A chat entry; only the fields the restore tool's chat dedup reads
(`ts`, `userId`, `text`) plus identity fields are modelled. -/
structure ChatMsg where
  id : String
  userId : String
  name : String
  text : String
  ts : Int
deriving DecidableEq, Repr

/-- The nested `op` object inside a wire operation: an optional client id plus
an opaque payload body. -/
structure InnerOp where
  id : Option String
  body : String
deriving DecidableEq, Repr

/-- One operation as submitted over the wire in a `board:ops` batch.
The durable path reads `opId` and `op.id`; the persistence-buffer merge
(`mergeOps`) reads the top-level `id` and `ts`.  `none` models an absent or
falsy field. -/
structure WireOp where
  id : Option String
  opId : Option String
  op : Option InnerOp
  ts : Int
  body : String
deriving DecidableEq, Repr

/-- The payload stored in a durable operation record: `item.op || item`
stores the nested `op` object when present, otherwise the whole wire item. -/
inductive Payload where
  | inner (p : InnerOp)
  | whole (w : WireOp)
deriving DecidableEq, Repr

/-- A durable operation record (`boardOpSchema`). -/
structure OpRecord where
  boardId : String
  seq : Nat
  opId : String
  op : Payload
  authorId : Option String
  ts : Nat
deriving DecidableEq, Repr

/-- A durable snapshot record (`boardSnapshotSchema`). -/
structure SnapRecord where
  boardId : String
  version : Nat
  tldraw : Option String
  checksum : String
  createdAt : Nat
deriving DecidableEq, Repr

/-- The `document` field of a board: cached tldraw blob, cached ops list,
and a bookkeeping timestamp. -/
structure DocState where
  tldraw : Option String
  ops : List WireOp
  updatedAt : Nat
deriving DecidableEq, Repr

/-- A board document (`boardSchema`). -/
structure Board where
  id : String
  title : String
  document : DocState
  members : List Member
  chat : List ChatMsg
  publicViewerToken : String
deriving DecidableEq, Repr

/-- The durable database state: the four MongoDB collections the sync engine
touches, each in insertion order. -/
structure DB where
  boards : List Board
  ops : List OpRecord
  snapshots : List SnapRecord
  counters : List (String × Nat)
deriving DecidableEq, Repr

/-- A database with no boards, operations, snapshots, or counters. -/
def emptyDB : DB := ⟨[], [], [], []⟩

/-- Association-list lookup for the Counter collection (`findOne` by `_id`). -/
def clookup : List (String × Nat) → String → Option Nat
  | [], _ => none
  | (k, v) :: rest, key => if k = key then some v else clookup rest key

/-- Association-list write for the Counter collection: replace the entry in
place when the key exists, otherwise append (Mongo upsert). -/
def cset : List (String × Nat) → String → Nat → List (String × Nat)
  | [], key, v => [(key, v)]
  | (k, w) :: rest, key, v =>
      if k = key then (key, v) :: rest else (k, w) :: cset rest key v

/-- The Counter `_id` used for a board's sequence counter. -/
def counterKey (boardId : String) : String :=
  "board:" ++ boardId ++ ":op_seq"

/-- Current value of a board's sequence counter; an absent counter document
reads as the schema default `0`. -/
def getCounterVal (db : DB) (boardId : String) : Nat :=
  (clookup db.counters (counterKey boardId)).getD 0

/-- `nextBoardSeq(boardId, session)`: atomic increment-and-read on the
per-board counter, created with default value `0` on first use
(`findOneAndUpdate` with `$inc: 1`, `upsert: true`, `new: true`). -/
def nextBoardSeq (db : DB) (boardId : String) : Nat × DB :=
  let key := counterKey boardId
  let v := (clookup db.counters key).getD 0 + 1
  (v, { db with counters := cset db.counters key v })

/-- `hashObj`: sha256-hex of `JSON.stringify(obj || {})`, modelled as an
injective deterministic digest of the opaque blob (`none` hashes the empty
object). -/
def hashObj : Option String → String
  | none => "digest-of-empty-object"
  | some s => "digest:" ++ s

/-- Find a board by id (`Board.findById`). -/
def findBoard (db : DB) (boardId : String) : Option Board :=
  db.boards.find? (fun b => b.id == boardId)

/-- Replace a board document after a `save()` call. -/
def updateBoard (db : DB) (b : Board) : DB :=
  { db with boards := db.boards.map (fun x => if x.id == b.id then b else x) }

/-- First durable operation record matching `(boardId, opId)` in insertion
order (`BoardOp.findOne({ boardId, opId })`). -/
def findOpL : List OpRecord → String → String → Option OpRecord
  | [], _, _ => none
  | r :: rest, boardId, opId =>
      if r.boardId == boardId && r.opId == opId then some r
      else findOpL rest boardId opId

/-- `findOpL` on the database's operation log. -/
def findOp (db : DB) (boardId opId : String) : Option OpRecord :=
  findOpL db.ops boardId opId

/-- Number of durable operation records for a board
(`BoardOp.countDocuments({ boardId })`). -/
def countOps (db : DB) (boardId : String) : Nat :=
  (db.ops.filter (fun r => r.boardId == boardId)).length

/-- Number of snapshot records for a board
(`BoardSnapshot.countDocuments({ boardId })`). -/
def countSnaps (db : DB) (boardId : String) : Nat :=
  (db.snapshots.filter (fun s => s.boardId == boardId)).length

/-- Idempotency key resolution in the `board:ops` insert loop:
`item.opId || (item.op && item.op.id) || crypto.randomUUID()`, with the
freshly generated UUID supplied as `fresh`. -/
def resolveOpId (item : WireOp) (fresh : String) : String :=
  match item.opId with
  | some s => s
  | none =>
    match item.op with
    | some inner =>
      match inner.id with
      | some s => s
      | none => fresh
    | none => fresh

/-- The payload stored for a wire item: `op: item.op || item`. -/
def storedPayload (item : WireOp) : Payload :=
  match item.op with
  | some p => Payload.inner p
  | none => Payload.whole item

/-- One iteration of the `board:ops` durable insert loop: skip when a record
with the same `(boardId, opId)` exists, otherwise allocate the next sequence
number and insert a new record. -/
def insertItem (db : DB) (boardId : String) (author : Option String)
    (now : Nat) (item : WireOp) (fresh : String) : DB :=
  match findOp db boardId (resolveOpId item fresh) with
  | some _ => db
  | none =>
    let p := nextBoardSeq db boardId
    { p.2 with ops := p.2.ops ++
        [{ boardId := boardId, seq := p.1, opId := resolveOpId item fresh,
           op := storedPayload item, authorId := author, ts := now }] }

/-- The full `board:ops` insert loop over a batch; each item is paired with
the UUID `crypto.randomUUID()` would yield for it. -/
def insertItems : DB → String → Option String → Nat →
    List (WireOp × String) → DB
  | db, _, _, _, [] => db
  | db, b, a, n, (it, u) :: rest =>
      insertItems (insertItem db b a n it u) b a n rest

/-- The checkpoint trigger at the end of the `board:ops` transaction: when the
post-insert operation count is divisible by 200 and the board exists, write a
snapshot record with version `count(existing snapshots) + 1`. -/
def maybeCheckpoint (db : DB) (boardId : String) (now : Nat) : DB :=
  if countOps db boardId % 200 = 0 then
    match findBoard db boardId with
    | some bd =>
      { db with snapshots := db.snapshots ++
          [{ boardId := boardId, version := countSnaps db boardId + 1,
             tldraw := bd.document.tldraw,
             checksum := hashObj bd.document.tldraw, createdAt := now }] }
    | none => db
  else db

/-- Body of the `session.withTransaction` block in the `board:ops` handler:
the dedup/insert loop followed by the checkpoint trigger. -/
def txnBoardOps (db : DB) (boardId : String) (author : Option String)
    (now : Nat) (items : List (WireOp × String)) : DB :=
  maybeCheckpoint (insertItems db boardId author now items) boardId now

/-- Per-board pending persistence-buffer entry. -/
structure Buf where
  ops : List WireOp
  snapshot : Option String
deriving DecidableEq, Repr

/-- The in-memory persistence buffers, keyed by board id (`_buffers`). -/
abbrev Buffers := List (String × Buf)

/-- Apply one `enqueuePersist` call to a single buffer entry: push the ops
when the list is non-empty, overwrite the pending snapshot when one is given. -/
def bufUpdate (buf : Buf) (ops : List WireOp) (snapshot : Option String) :
    Buf :=
  let buf1 := if ops.isEmpty then buf else { buf with ops := buf.ops ++ ops }
  match snapshot with
  | some s => { buf1 with snapshot := some s }
  | none => buf1

/-- `enqueuePersist(boardId, ops, snapshot)`: get-or-create the board's buffer
entry and accumulate the pending writes.  The 150 ms flush timer itself is a
scheduling detail and is not modelled here. -/
def enqueuePersist : Buffers → String → List WireOp → Option String → Buffers
  | [], b, ops, snap => [(b, bufUpdate ⟨[], none⟩ ops snap)]
  | (k, buf) :: rest, b, ops, snap =>
      if k = b then (k, bufUpdate buf ops snap) :: rest
      else (k, buf) :: enqueuePersist rest b ops snap

/-- The JavaScript `Map` key used by the flush-time merge: the operation's
top-level client id (`op.id`, possibly absent). -/
def bufKey (w : WireOp) : Option String := w.id

/-- One `map.set`-with-check step of `mergeOps`: replace the entry for the
key in place when the incoming timestamp is not older, append a new entry
when the key is unseen. -/
def mapUpsert : List WireOp → WireOp → List WireOp
  | [], op => [op]
  | x :: xs, op =>
      if bufKey x = bufKey op then (if x.ts ≤ op.ts then op else x) :: xs
      else x :: mapUpsert xs op

/-- `mergeOps(existing, incoming)` from the persistence buffer flush:
dedup by client id keeping the greater timestamp, then sort ascending by
timestamp. -/
def mergeOps (existing incoming : List WireOp) : List WireOp :=
  ((existing ++ incoming).foldl mapUpsert []).mergeSort
    (fun a b => a.ts ≤ b.ts)

/-- Per-socket state relevant to `board:ops`: the authenticated user (if
any), the joined room, and the role resolved at join time. -/
structure Sock where
  userId : Option String
  boardId : Option String
  role : Role
deriving DecidableEq, Repr

/-- Acknowledgment sent back to the submitting socket. -/
structure Ack where
  ok : Bool
  error : Option String
deriving DecidableEq, Repr

/-- A `board:ops` broadcast to the other sockets of the room. -/
structure Broadcast where
  boardId : String
  ops : List WireOp
  snapshot : Option String
deriving DecidableEq, Repr

/-- Everything the `board:ops` handler produces. -/
structure HandlerResult where
  db : DB
  bufs : Buffers
  broadcast : Option Broadcast
  ack : Ack
deriving DecidableEq, Repr

/-- The `board:ops` socket handler: reject when not joined to a room; reject
with `read-only` unless the resolved role is owner or editor; otherwise
broadcast to peers and enqueue into the persistence buffer, then run the
durable transaction.  `commit = false` models the transaction aborting
(Mongo rolls back every write made under the session), in which case the
handler acknowledges `persist failed`. -/
def boardOpsHandler (db : DB) (bufs : Buffers) (sock : Sock)
    (items : List (WireOp × String)) (snapshot : Option String) (now : Nat)
    (commit : Bool) : HandlerResult :=
  match sock.boardId with
  | none => ⟨db, bufs, none, ⟨false, some "no-room"⟩⟩
  | some b =>
    if sock.role = Role.owner ∨ sock.role = Role.editor then
      let bc : Option Broadcast := some ⟨b, items.map Prod.fst, snapshot⟩
      let bufs1 := enqueuePersist bufs b (items.map Prod.fst) snapshot
      if commit then
        ⟨txnBoardOps db b sock.userId now items, bufs1, bc, ⟨true, none⟩⟩
      else ⟨db, bufs1, bc, ⟨false, some "persist failed"⟩⟩
    else ⟨db, bufs, none, ⟨false, some "read-only"⟩⟩

/-- Response of a membership REST route. -/
structure ApiResp where
  status : Nat
  error : Option String
deriving DecidableEq, Repr

/-- Set the role of the first member entry with the given user id
(`already.role = role` / `m.role = role`). -/
def setRoleFirst : List Member → String → Role → List Member
  | [], _, _ => []
  | m :: ms, uid, r =>
      if m.userId == uid then { m with role := r } :: ms
      else m :: setRoleFirst ms uid r

/-- Remove the first member entry with the given user id
(`members.splice(idx, 1)` at `findIndex`). -/
def removeFirst : List Member → String → List Member
  | [], _ => []
  | m :: ms, uid => if m.userId == uid then ms else m :: removeFirst ms uid

/-- Number of members whose role is owner. -/
def ownersCount (ms : List Member) : Nat :=
  (ms.filter (fun m => m.role == Role.owner)).length

/-- `POST /api/boards/:id/members`: only an owner may call it; an existing
member's role is overwritten, a new member is appended.  The target user is
given as the user id the route resolves from the request email (a missing
user yields a 404 before any mutation and is not modelled). -/
def addMemberRoute (db : DB) (boardId requesterId targetUserId : String)
    (role : Role) : DB × ApiResp :=
  match findBoard db boardId with
  | none => (db, ⟨404, some "Not found"⟩)
  | some b =>
    match b.members.find? (fun m => m.userId == requesterId) with
    | none => (db, ⟨403, some "Only owner can add members"⟩)
    | some me =>
      if me.role ≠ Role.owner then
        (db, ⟨403, some "Only owner can add members"⟩)
      else
        match b.members.find? (fun m => m.userId == targetUserId) with
        | some _ =>
          (updateBoard db
            { b with members := setRoleFirst b.members targetUserId role },
           ⟨200, none⟩)
        | none =>
          (updateBoard db
            { b with members := b.members ++ [⟨targetUserId, role⟩] },
           ⟨200, none⟩)

/-- `PATCH /api/boards/:id/members`: role change with the sole-owner guard
(demoting an owner is rejected when the board has at most one owner). -/
def patchMemberRoute (db : DB) (boardId requesterId targetUserId : String)
    (role : Role) : DB × ApiResp :=
  match findBoard db boardId with
  | none => (db, ⟨404, some "Not found"⟩)
  | some b =>
    match b.members.find? (fun m => m.userId == requesterId) with
    | none => (db, ⟨403, some "Only owner can change roles"⟩)
    | some me =>
      if me.role ≠ Role.owner then
        (db, ⟨403, some "Only owner can change roles"⟩)
      else
        match b.members.find? (fun m => m.userId == targetUserId) with
        | none => (db, ⟨404, some "Member not found"⟩)
        | some m =>
          if m.role = Role.owner ∧ role ≠ Role.owner ∧
              ownersCount b.members ≤ 1 then
            (db, ⟨400, some "Must keep at least one owner"⟩)
          else
            (updateBoard db
              { b with members := setRoleFirst b.members targetUserId role },
             ⟨200, none⟩)

/-- `DELETE /api/boards/:id/members/:userId`: member removal with the
sole-owner guard (removing an owner is rejected when the board has at most
one owner). -/
def deleteMemberRoute (db : DB) (boardId requesterId targetUserId : String) :
    DB × ApiResp :=
  match findBoard db boardId with
  | none => (db, ⟨404, some "Not found"⟩)
  | some b =>
    match b.members.find? (fun m => m.userId == requesterId) with
    | none => (db, ⟨403, some "Only owner can remove members"⟩)
    | some me =>
      if me.role ≠ Role.owner then
        (db, ⟨403, some "Only owner can remove members"⟩)
      else
        match b.members.find? (fun m => m.userId == targetUserId) with
        | none => (db, ⟨404, some "Member not found"⟩)
        | some m =>
          if m.role = Role.owner ∧ ownersCount b.members ≤ 1 then
            (db, ⟨400, some "Must keep at least one owner"⟩)
          else
            (updateBoard db
              { b with members := removeFirst b.members targetUserId },
             ⟨200, none⟩)

/-- One operation record inside an export artifact.  Artifacts are produced
by `GET /api/boards/:id/export` from durable records, so `opId`, `seq` and
`ts` are always present. -/
structure ArtOp where
  opId : String
  seq : Nat
  op : Payload
  authorId : Option String
  ts : Nat
deriving DecidableEq, Repr

/-- An export artifact (`meta`, `snapshot`, `ops`, `members`, `chat`). -/
structure Artifact where
  boardId : String
  title : String
  baseVersion : Nat
  checksum : String
  snapshot : Option String
  ops : List ArtOp
  members : List Member
  chat : List ChatMsg
deriving Repr

/-- Member-merge step of the restore tool: the `Map` keyed by `userId`,
where a later entry for the same user overwrites the earlier one in place. -/
def memberUpsert : List Member → Member → List Member
  | [], m => [m]
  | x :: xs, m =>
      if x.userId == m.userId then m :: xs else x :: memberUpsert xs m

/-- Restore's member merge: existing members then incoming members folded
through the userId-keyed map (incoming role wins on conflict). -/
def mergeMembers (cur inc : List Member) : List Member :=
  (cur ++ inc).foldl memberUpsert []

/-- Restore's chat dedup key: `ts + '-' + userId + '-' + text.slice(0,200)`. -/
def chatKey (c : ChatMsg) : String :=
  toString c.ts ++ "-" ++ c.userId ++ "-" ++ c.text.take 200

/-- Keep the first chat entry for each dedup key. -/
def dedupChatGo : List String → List ChatMsg → List ChatMsg
  | _, [] => []
  | seen, c :: rest =>
      if seen.contains (chatKey c) then dedupChatGo seen rest
      else c :: dedupChatGo (chatKey c :: seen) rest

/-- Restore's chat merge: existing then incoming, deduplicated by key. -/
def mergeChat (cur inc : List ChatMsg) : List ChatMsg :=
  dedupChatGo [] (cur ++ inc)

/-- Phase (a)-(c) of the restore tool: create the board when it does not
exist (preserving the artifact's board id), otherwise replace the cached
snapshot when its digest differs and merge members and chat. -/
def restoreBoardPhase (db : DB) (a : Artifact) (now : Nat) : DB :=
  match findBoard db a.boardId with
  | none =>
    { db with boards := db.boards ++
        [{ id := a.boardId, title := a.title,
           document := { tldraw := a.snapshot, ops := [], updatedAt := now },
           members := a.members, chat := a.chat, publicViewerToken := "" }] }
  | some b =>
    let curHash := match b.document.tldraw with
      | some s => hashObj (some s)
      | none => ""
    let newHash := match a.snapshot with
      | some s => hashObj (some s)
      | none => ""
    let doc1 := if newHash ≠ "" ∧ newHash ≠ curHash then
        { b.document with tldraw := a.snapshot, updatedAt := now }
      else b.document
    updateBoard db
      { b with document := doc1,
               members := mergeMembers b.members a.members,
               chat := mergeChat b.chat a.chat }

/-- Snapshot phase of the restore tool: when the artifact carries a snapshot,
write a snapshot record with version `count(existing snapshots) + 1`. -/
def restoreSnapshotPhase (db : DB) (a : Artifact) (now : Nat) : DB :=
  match a.snapshot with
  | none => db
  | some s =>
    { db with snapshots := db.snapshots ++
        [{ boardId := a.boardId, version := countSnaps db a.boardId + 1,
           tldraw := some s, checksum := hashObj (some s),
           createdAt := now }] }

/-- The operation record the restore tool inserts for one artifact op:
the artifact's original sequence number, idempotency key, payload, author
and timestamp are kept. -/
def artRecord (boardId : String) (item : ArtOp) : OpRecord :=
  { boardId := boardId, seq := item.seq, opId := item.opId, op := item.op,
    authorId := item.authorId, ts := item.ts }

/-- The restore tool's idempotent op-insert loop, threading the running
`maxSeq` accumulator: an existing `(boardId, opId)` record contributes its
stored sequence number, a fresh record is inserted with the artifact's
original sequence number. -/
def restoreOpsGo : DB → String → Nat → List ArtOp → DB × Nat
  | db, _, m, [] => (db, m)
  | db, b, m, item :: rest =>
    match findOp db b item.opId with
    | some r => restoreOpsGo db b (max m r.seq) rest
    | none =>
      restoreOpsGo { db with ops := db.ops ++ [artRecord b item] } b
        (max m item.seq) rest

/-- Counter reconciliation at the end of restore: create the counter at
`maxSeq` when absent, raise it to `maxSeq` when smaller, leave it alone
otherwise. -/
def reconcileCounter (db : DB) (boardId : String) (maxSeq : Nat) : DB :=
  match clookup db.counters (counterKey boardId) with
  | none =>
    { db with counters := cset db.counters (counterKey boardId) maxSeq }
  | some v =>
    if v < maxSeq then
      { db with counters := cset db.counters (counterKey boardId) maxSeq }
    else db

/-- `main` of `tools/restore.js`: board phase, snapshot record, idempotent op
inserts, counter reconciliation. -/
def restore (db : DB) (a : Artifact) (now : Nat) : DB :=
  let db1 := restoreBoardPhase db a now
  let db2 := restoreSnapshotPhase db1 a now
  let p := restoreOpsGo db2 a.boardId 0 a.ops
  reconcileCounter p.1 a.boardId p.2

/-- The database state just before restore's counter reconciliation (board
phase, snapshot phase and op-insert loop already applied). -/
def restoreMidDB (db : DB) (a : Artifact) (now : Nat) : DB :=
  (restoreOpsGo (restoreSnapshotPhase (restoreBoardPhase db a now) a now)
    a.boardId 0 a.ops).1

/-- The `maxSeq` value restore hands to the counter reconciliation. -/
def restoreMaxSeq (db : DB) (a : Artifact) (now : Nat) : Nat :=
  (restoreOpsGo (restoreSnapshotPhase (restoreBoardPhase db a now) a now)
    a.boardId 0 a.ops).2

/-- Sequence numbers of a board's operation records in insertion order. -/
def boardSeqs (db : DB) (boardId : String) : List Nat :=
  (db.ops.filter (fun r => r.boardId == boardId)).map (fun r => r.seq)

/-- Log/counter well-formedness: for every board, the stored sequence
numbers are strictly increasing in insertion order and bounded by the
board's counter.  This holds for every database reachable through the
`board:ops` handler. -/
def SeqInv (db : DB) : Prop :=
  ∀ b : String, List.Chain' (· < ·) (boardSeqs db b) ∧
    ∀ s ∈ boardSeqs db b, s ≤ getCounterVal db b

/-- Sequence number read off an optional record (`x.seq || 0`). -/
def seqOf : Option OpRecord → Nat
  | some r => r.seq
  | none => 0

/-- Maximum-sequence fold over artifact ops, reading each op's stored
record from a fixed operation log. -/
def msFold (l : List OpRecord) (boardId : String) (m : Nat)
    (arts : List ArtOp) : Nat :=
  arts.foldl (fun acc x => max acc (seqOf (findOpL l boardId x.opId))) m

/-- Client-id keys of a buffered operation list. -/
def bufKeys (l : List WireOp) : List (Option String) := l.map bufKey

/-- Invariant of the `mergeOps` dedup fold, relating the accumulator map to
the portion of the input already processed: keys are unique, keys and
entries come from the processed input, and each entry's timestamp dominates
every processed entry with the same key. -/
def MergeInv (acc processed : List WireOp) : Prop :=
  (bufKeys acc).Nodup
  ∧ (∀ k, k ∈ bufKeys acc ↔ k ∈ bufKeys processed)
  ∧ (∀ x ∈ acc, x ∈ processed)
  ∧ ∀ x ∈ acc, ∀ y ∈ processed, bufKey y = bufKey x → y.ts ≤ x.ts

/-- A board whose only member is its sole owner. -/
def soleOwnerBoard : Board :=
  ⟨"B", "t", ⟨none, [], 0⟩, [⟨"u1", Role.owner⟩], [], ""⟩

/-- Database holding just `soleOwnerBoard`. -/
def soleOwnerDB : DB := ⟨[soleOwnerBoard], [], [], []⟩

/-- A one-owner board used in the checkpoint-cadence run. -/
def chkBoard : Board :=
  ⟨"B", "t", ⟨none, [], 0⟩, [⟨"u", Role.owner⟩], [], ""⟩

/-- Fresh database holding just `chkBoard`: no ops, no snapshots. -/
def chkDB0 : DB := ⟨[chkBoard], [], [], []⟩

/-- The i-th distinct operation of the checkpoint-cadence run. -/
def chkItem (i : Nat) : WireOp × String :=
  (⟨none, some ("a" ++ toString i), none, 0, ""⟩, "u" ++ toString i)

/-- First submitted batch: 199 distinct operations. -/
def chkBatch1 : List (WireOp × String) := (List.range 199).map chkItem

/-- Second submitted batch: 2 further distinct operations, crossing the
200-operation boundary mid-batch. -/
def chkBatch2 : List (WireOp × String) :=
  [(⟨none, some "b0", none, 0, ""⟩, "v0"),
   (⟨none, some "b1", none, 0, ""⟩, "v1")]

/-- State after the first batch is processed durably. -/
def chkDB1 : DB := txnBoardOps chkDB0 "B" none 0 chkBatch1

/-- State after the second batch is processed durably. -/
def chkDB2 : DB := txnBoardOps chkDB1 "B" none 0 chkBatch2

/-! ## Basic lemmas about the counter store and the operation log -/

theorem clookup_cset_self (l : List (String × Nat)) (k : String) (v : Nat) :
    clookup (cset l k v) k = some v := by
  induction l with
  | nil => simp [cset, clookup]
  | cons p rest ih =>
    obtain ⟨a, w⟩ := p
    by_cases h : a = k
    · simp [cset, h, clookup]
    · simp [cset, h, clookup, ih]

theorem clookup_cset_ne (l : List (String × Nat)) (k k' : String) (v : Nat)
    (h : k' ≠ k) : clookup (cset l k v) k' = clookup l k' := by
  have hkk : ¬ k = k' := fun hc => h hc.symm
  induction l with
  | nil => simp [cset, clookup, hkk]
  | cons p rest ih =>
    obtain ⟨a, w⟩ := p
    by_cases ha : a = k
    · simp [cset, ha, clookup, hkk]
    · simp [cset, ha, clookup, ih]

theorem counterKey_inj {a b : String} (h : counterKey a = counterKey b) :
    a = b := by
  have h2 : ("board:" ++ a ++ ":op_seq").data =
      ("board:" ++ b ++ ":op_seq").data := by
    rw [show ("board:" ++ a ++ ":op_seq") = counterKey a from rfl, h]; rfl
  simp only [String.data_append] at h2
  have h3 := List.append_cancel_right h2
  have h4 := List.append_cancel_left h3
  cases a; cases b
  exact congrArg String.mk h4

theorem getCounterVal_next_self (db : DB) (b : String) :
    getCounterVal (nextBoardSeq db b).2 b = getCounterVal db b + 1 := by
  simp [getCounterVal, nextBoardSeq, clookup_cset_self]

theorem getCounterVal_next_ne (db : DB) (b b' : String) (h : b' ≠ b) :
    getCounterVal (nextBoardSeq db b).2 b' = getCounterVal db b' := by
  have hk : counterKey b' ≠ counterKey b := fun hc => h (counterKey_inj hc)
  simp [getCounterVal, nextBoardSeq, clookup_cset_ne _ _ _ _ hk]

theorem findOpL_append_found (l l2 : List OpRecord) (b o : String)
    (r : OpRecord) (h : findOpL l b o = some r) :
    findOpL (l ++ l2) b o = some r := by
  induction l with
  | nil => simp [findOpL] at h
  | cons x xs ih =>
    by_cases hx : (x.boardId == b && x.opId == o) = true
    · simp [findOpL, hx] at h ⊢; exact h
    · simp [findOpL, hx] at h ⊢; exact ih h

theorem findOpL_append_self (l : List OpRecord) (b o : String) (r : OpRecord)
    (hn : findOpL l b o = none) (hb : r.boardId = b) (ho : r.opId = o) :
    findOpL (l ++ [r]) b o = some r := by
  induction l with
  | nil => simp [findOpL, hb, ho]
  | cons x xs ih =>
    by_cases hx : (x.boardId == b && x.opId == o) = true
    · simp [findOpL, hx] at hn
    · simp [findOpL, hx] at hn ⊢; exact ih hn

theorem findOpL_append_none (l : List OpRecord) (b o : String) (r : OpRecord)
    (hn : findOpL l b o = none) (hne : (r.boardId == b && r.opId == o) = false) :
    findOpL (l ++ [r]) b o = none := by
  induction l with
  | nil => simp [findOpL, hne]
  | cons x xs ih =>
    by_cases hx : (x.boardId == b && x.opId == o) = true
    · simp [findOpL, hx] at hn
    · simp [findOpL, hx] at hn ⊢; exact ih hn

/-! ## Characterizations of the insert-loop step -/

theorem insertItem_of_found (db : DB) (b : String) (a : Option String)
    (n : Nat) (it : WireOp) (u : String) (r : OpRecord)
    (hf : findOp db b (resolveOpId it u) = some r) :
    insertItem db b a n it u = db := by
  unfold insertItem
  rw [hf]

theorem insertItem_of_not_found (db : DB) (b : String) (a : Option String)
    (n : Nat) (it : WireOp) (u : String)
    (hf : findOp db b (resolveOpId it u) = none) :
    insertItem db b a n it u =
      { db with
          counters := cset db.counters (counterKey b) (getCounterVal db b + 1),
          ops := db.ops ++
            [{ boardId := b, seq := getCounterVal db b + 1,
               opId := resolveOpId it u, op := storedPayload it,
               authorId := a, ts := n }] } := by
  unfold insertItem
  rw [hf]
  rfl

/-! ## C5, C6: handler-level guarantees -/

/-- C5 (atomic batch append): all durable appends of a submitted batch run
inside one `withTransaction` block per batch, together with the sequence
allocations and the checkpoint write; when that transaction aborts
(`commit = false`), the durable state is untouched — in particular no
operation record of the batch is persisted and the per-board sequence
counter is not consumed. -/
theorem claim_C5_atomic_batch_append (db : DB) (bufs : Buffers) (sock : Sock)
    (items : List (WireOp × String)) (snapshot : Option String) (now : Nat) :
    (boardOpsHandler db bufs sock items snapshot now false).db = db
    ∧ (boardOpsHandler db bufs sock items snapshot now false).db.ops = db.ops
    ∧ (boardOpsHandler db bufs sock items snapshot now false).db.counters =
        db.counters := by
  have h : (boardOpsHandler db bufs sock items snapshot now false).db = db := by
    unfold boardOpsHandler
    cases hsb : sock.boardId with
    | none => rfl
    | some b =>
      by_cases hr : sock.role = Role.owner ∨ sock.role = Role.editor
      · simp [hr]
      · simp [hr]
  exact ⟨h, by rw [h], by rw [h]⟩

/-- C6 (read-only enforcement): when the socket's resolved role is neither
owner nor editor, a `board:ops` submission is acknowledged with the
`read-only` error and has no effect at all: no broadcast, no buffered
write, no durable write. -/
theorem claim_C6_read_only_enforcement (db : DB) (bufs : Buffers)
    (sock : Sock) (items : List (WireOp × String)) (snapshot : Option String)
    (now : Nat) (commit : Bool) (b : String)
    (hb : sock.boardId = some b)
    (hr1 : sock.role ≠ Role.owner) (hr2 : sock.role ≠ Role.editor) :
    boardOpsHandler db bufs sock items snapshot now commit =
      ⟨db, bufs, none, ⟨false, some "read-only"⟩⟩ := by
  have hor : ¬ (sock.role = Role.owner ∨ sock.role = Role.editor) := by
    rintro (h | h)
    · exact hr1 h
    · exact hr2 h
  unfold boardOpsHandler
  simp [hb, hor]

/-- Witness for C6: a viewer socket joined to board `B` submitting a
one-operation batch gets the `read-only` rejection and changes nothing. -/
theorem claim_C6_witness :
    boardOpsHandler emptyDB [] ⟨some "u", some "B", Role.viewer⟩
        [(⟨some "x", some "x", none, 0, "s"⟩, "F")] none 0 true =
      ⟨emptyDB, [], none, ⟨false, some "read-only"⟩⟩ :=
  claim_C6_read_only_enforcement emptyDB [] ⟨some "u", some "B", Role.viewer⟩
    [(⟨some "x", some "x", none, 0, "s"⟩, "F")] none 0 true "B"
    rfl (by decide) (by decide)

/-! ## C3: owner invariant -/

/-- C3 counterexample: the claim asserts that every membership-mutating
operation — including the member add/role-overwrite route — rejects a
demotion of the sole remaining owner.  The POST add-member route has no
such guard: on a board whose only member `u1` is the sole owner, the owner
`u1` adding themselves with role `editor` succeeds (status 200, no error)
and leaves the board with zero owners. -/
theorem claim_C3_counterexample :
    addMemberRoute soleOwnerDB "B" "u1" "u1" Role.editor =
      (⟨[⟨"B", "t", ⟨none, [], 0⟩, [⟨"u1", Role.editor⟩], [], ""⟩],
        [], [], []⟩, ⟨200, none⟩)
    ∧ ownersCount [Member.mk "u1" Role.editor] = 0
    ∧ ownersCount soleOwnerBoard.members = 1 := by
  decide

/-- C3 (amended): the sole-owner guard holds for the PATCH role-change and
DELETE member-removal routes: any request that would demote (to a non-owner
role) or remove the sole remaining owner is answered with an error and
leaves the database — hence the board's membership list — unchanged.  The
POST add-member route carries no such guard (see the counterexample). -/
theorem claim_C3_owner_invariant_amended (db : DB)
    (boardId req tgt : String) (role : Role) (b : Board) (m : Member)
    (hb : findBoard db boardId = some b)
    (hm : b.members.find? (fun x => x.userId == tgt) = some m)
    (howner : m.role = Role.owner)
    (hsole : ownersCount b.members ≤ 1)
    (hrole : role ≠ Role.owner) :
    (patchMemberRoute db boardId req tgt role).1 = db
    ∧ ((patchMemberRoute db boardId req tgt role).2).error.isSome = true
    ∧ (deleteMemberRoute db boardId req tgt).1 = db
    ∧ ((deleteMemberRoute db boardId req tgt).2).error.isSome = true := by
  have hpatch : (patchMemberRoute db boardId req tgt role).1 = db
      ∧ ((patchMemberRoute db boardId req tgt role).2).error.isSome = true := by
    unfold patchMemberRoute
    simp only [hb]
    cases hme : b.members.find? (fun x => x.userId == req) with
    | none => simp
    | some me =>
      dsimp only
      by_cases hro : me.role = Role.owner
      · rw [if_neg (by simp [hro])]
        simp only [hm]
        rw [if_pos ⟨howner, hrole, hsole⟩]
        exact ⟨rfl, rfl⟩
      · rw [if_pos hro]
        exact ⟨rfl, rfl⟩
  have hdel : (deleteMemberRoute db boardId req tgt).1 = db
      ∧ ((deleteMemberRoute db boardId req tgt).2).error.isSome = true := by
    unfold deleteMemberRoute
    simp only [hb]
    cases hme : b.members.find? (fun x => x.userId == req) with
    | none => simp
    | some me =>
      dsimp only
      by_cases hro : me.role = Role.owner
      · rw [if_neg (by simp [hro])]
        simp only [hm]
        rw [if_pos ⟨howner, hsole⟩]
        exact ⟨rfl, rfl⟩
      · rw [if_pos hro]
        exact ⟨rfl, rfl⟩
  exact ⟨hpatch.1, hpatch.2, hdel.1, hdel.2⟩

/-- Witness for C3 (amended): on the sole-owner board, demoting `u1` to
viewer via PATCH and removing `u1` via DELETE both error out and leave the
database unchanged. -/
theorem claim_C3_witness :
    (patchMemberRoute soleOwnerDB "B" "u1" "u1" Role.viewer).1 = soleOwnerDB
    ∧ ((patchMemberRoute soleOwnerDB "B" "u1" "u1" Role.viewer).2).error.isSome
        = true
    ∧ (deleteMemberRoute soleOwnerDB "B" "u1" "u1").1 = soleOwnerDB
    ∧ ((deleteMemberRoute soleOwnerDB "B" "u1" "u1").2).error.isSome = true :=
  claim_C3_owner_invariant_amended soleOwnerDB "B" "u1" "u1" Role.viewer
    soleOwnerBoard ⟨"u1", Role.owner⟩ (by decide) (by decide) (by decide)
    (by decide) (by decide)

/-! ## C10: the randomUUID fallback for id-less items -/

/-- C10 (implicit): a batch item carrying neither an `opId` field nor a
nested `op.id` gets the freshly generated `crypto.randomUUID()` value as
its idempotency key, so — the generated keys being fresh — the
`(boardId, opId)` dedup never matches and resubmitting the identical item
inserts an additional, distinct operation record each time. -/
theorem claim_C10_uuid_fallback (db : DB) (b : String)
    (author : Option String) (n1 n2 : Nat) (item : WireOp) (f1 f2 : String)
    (hid : item.opId = none)
    (hinner : ∀ p, item.op = some p → p.id = none)
    (h1 : findOp db b f1 = none)
    (h2 : findOp db b f2 = none)
    (hne : f2 ≠ f1) :
    resolveOpId item f1 = f1
    ∧ (insertItem db b author n1 item f1).ops = db.ops ++
        [⟨b, getCounterVal db b + 1, f1, storedPayload item, author, n1⟩]
    ∧ (insertItem (insertItem db b author n1 item f1) b author n2 item f2).ops
        = db.ops ++
          [⟨b, getCounterVal db b + 1, f1, storedPayload item, author, n1⟩,
           ⟨b, getCounterVal db b + 2, f2, storedPayload item, author, n2⟩]
    := by
  have hres : ∀ f : String, resolveOpId item f = f := by
    intro f
    unfold resolveOpId
    simp only [hid]
    cases hop : item.op with
    | none => rfl
    | some p => simp [hinner p hop]
  have he1 := insertItem_of_not_found db b author n1 item f1
    (by rw [hres f1]; exact h1)
  have hops1 : (insertItem db b author n1 item f1).ops = db.ops ++
      [⟨b, getCounterVal db b + 1, f1, storedPayload item, author, n1⟩] := by
    rw [he1, hres f1]
  have hcnt1 : getCounterVal (insertItem db b author n1 item f1) b =
      getCounterVal db b + 1 := by
    rw [he1]
    simp [getCounterVal, clookup_cset_self]
  have hnf2 : findOp (insertItem db b author n1 item f1) b
      (resolveOpId item f2) = none := by
    rw [hres f2]
    unfold findOp
    rw [hops1]
    refine findOpL_append_none _ _ _ _ h2 ?_
    have hf12 : ¬ f1 = f2 := fun hc => hne hc.symm
    simp [hf12]
  have he2 := insertItem_of_not_found (insertItem db b author n1 item f1) b
    author n2 item f2 hnf2
  refine ⟨hres f1, hops1, ?_⟩
  rw [he2, hres f2, hops1, hcnt1]
  simp

/-- Witness for C10: inserting the same id-less item twice into an empty
database with distinct fresh UUIDs `F1`, `F2` yields two distinct records
with sequence numbers 1 and 2. -/
theorem claim_C10_witness :
    resolveOpId ⟨none, none, none, 0, "s"⟩ "F1" = "F1"
    ∧ (insertItem emptyDB "B" none 0 ⟨none, none, none, 0, "s"⟩ "F1").ops =
        emptyDB.ops ++
          [⟨"B", getCounterVal emptyDB "B" + 1, "F1",
            storedPayload ⟨none, none, none, 0, "s"⟩, none, 0⟩]
    ∧ (insertItem (insertItem emptyDB "B" none 0 ⟨none, none, none, 0, "s"⟩
          "F1") "B" none 0 ⟨none, none, none, 0, "s"⟩ "F2").ops =
        emptyDB.ops ++
          [⟨"B", getCounterVal emptyDB "B" + 1, "F1",
            storedPayload ⟨none, none, none, 0, "s"⟩, none, 0⟩,
           ⟨"B", getCounterVal emptyDB "B" + 2, "F2",
            storedPayload ⟨none, none, none, 0, "s"⟩, none, 0⟩] :=
  claim_C10_uuid_fallback emptyDB "B" none 0 0 ⟨none, none, none, 0, "s"⟩
    "F1" "F2" rfl (by intro p hp; cases hp) (by decide) (by decide)
    (by decide)

/-! ## Projection lemmas for the insert loop and the checkpoint trigger -/

theorem maybeCheckpoint_ops (db : DB) (b : String) (n : Nat) :
    (maybeCheckpoint db b n).ops = db.ops := by
  unfold maybeCheckpoint
  split
  · cases findBoard db b <;> rfl
  · rfl

theorem maybeCheckpoint_counters (db : DB) (b : String) (n : Nat) :
    (maybeCheckpoint db b n).counters = db.counters := by
  unfold maybeCheckpoint
  split
  · cases findBoard db b <;> rfl
  · rfl

theorem insertItem_boards (db : DB) (b : String) (a : Option String)
    (n : Nat) (it : WireOp) (u : String) :
    (insertItem db b a n it u).boards = db.boards := by
  unfold insertItem
  cases findOp db b (resolveOpId it u) <;> rfl

theorem insertItem_snapshots (db : DB) (b : String) (a : Option String)
    (n : Nat) (it : WireOp) (u : String) :
    (insertItem db b a n it u).snapshots = db.snapshots := by
  unfold insertItem
  cases findOp db b (resolveOpId it u) <;> rfl

theorem insertItems_boards (db : DB) (b : String) (a : Option String)
    (n : Nat) (items : List (WireOp × String)) :
    (insertItems db b a n items).boards = db.boards := by
  induction items generalizing db with
  | nil => rfl
  | cons p rest ih =>
    obtain ⟨it, u⟩ := p
    calc (insertItems (insertItem db b a n it u) b a n rest).boards
        = (insertItem db b a n it u).boards := ih _
      _ = db.boards := insertItem_boards db b a n it u

theorem insertItems_snapshots (db : DB) (b : String) (a : Option String)
    (n : Nat) (items : List (WireOp × String)) :
    (insertItems db b a n items).snapshots = db.snapshots := by
  induction items generalizing db with
  | nil => rfl
  | cons p rest ih =>
    obtain ⟨it, u⟩ := p
    calc (insertItems (insertItem db b a n it u) b a n rest).snapshots
        = (insertItem db b a n it u).snapshots := ih _
      _ = db.snapshots := insertItem_snapshots db b a n it u

/-! ## C1: idempotent append -/

theorem insertItems_of_all_dup (db : DB) (b : String) (a : Option String)
    (n : Nat) (items : List (WireOp × String))
    (h : ∀ p ∈ items, (findOp db b (resolveOpId p.1 p.2)).isSome = true) :
    insertItems db b a n items = db := by
  induction items with
  | nil => rfl
  | cons p rest ih =>
    obtain ⟨it, u⟩ := p
    have h1 : (findOp db b (resolveOpId it u)).isSome = true :=
      h (it, u) (by simp)
    cases hf : findOp db b (resolveOpId it u) with
    | none => rw [hf] at h1; simp at h1
    | some r =>
      show insertItems (insertItem db b a n it u) b a n rest = db
      rw [insertItem_of_found db b a n it u r hf]
      exact ih (fun q hq => h q (List.mem_cons_of_mem _ hq))

theorem restoreOpsGo_skip_all (db : DB) (b : String) (m : Nat)
    (arts : List ArtOp)
    (h : ∀ x ∈ arts, (findOp db b x.opId).isSome = true) :
    restoreOpsGo db b m arts = (db, msFold db.ops b m arts) := by
  induction arts generalizing m with
  | nil => rfl
  | cons it rest ih =>
    have h1 : (findOp db b it.opId).isSome = true := h it (by simp)
    cases hf : findOp db b it.opId with
    | none => rw [hf] at h1; simp at h1
    | some r =>
      unfold restoreOpsGo
      rw [hf]
      show restoreOpsGo db b (max m r.seq) rest =
        (db, msFold db.ops b m (it :: rest))
      rw [ih (max m r.seq) (fun q hq => h q (List.mem_cons_of_mem _ hq))]
      unfold msFold
      rw [List.foldl_cons]
      rw [show findOpL db.ops b it.opId = some r from hf]
      rfl

/-- C1 (idempotent append): submitting an operation whose `(boardId, opId)`
already has a stored record is a no-op on both write paths: a fully
retried `board:ops` batch leaves the operation log and the per-board
sequence counter untouched, and the restore tool's insert loop leaves the
whole database untouched. -/
theorem claim_C1_idempotent_append (db : DB) (b : String)
    (author : Option String) (now : Nat) (items : List (WireOp × String))
    (m : Nat) (arts : List ArtOp)
    (h1 : ∀ p ∈ items, (findOp db b (resolveOpId p.1 p.2)).isSome = true)
    (h2 : ∀ x ∈ arts, (findOp db b x.opId).isSome = true) :
    (txnBoardOps db b author now items).ops = db.ops
    ∧ (txnBoardOps db b author now items).counters = db.counters
    ∧ (restoreOpsGo db b m arts).1 = db := by
  have hins : insertItems db b author now items = db :=
    insertItems_of_all_dup db b author now items h1
  refine ⟨?_, ?_, ?_⟩
  · unfold txnBoardOps
    rw [hins, maybeCheckpoint_ops]
  · unfold txnBoardOps
    rw [hins, maybeCheckpoint_counters]
  · rw [restoreOpsGo_skip_all db b m arts h2]

/-- Witness for C1: a database already holding the record `(B, x1)`;
resubmitting `x1` through the batch loop and through the restore loop
changes nothing. -/
theorem claim_C1_witness :
    (txnBoardOps
        ⟨[], [⟨"B", 1, "x1", Payload.whole ⟨some "x1", some "x1", none, 0, "s"⟩,
          none, 0⟩], [], [(counterKey "B", 1)]⟩ "B" none 7
        [(⟨some "x1", some "x1", none, 0, "s"⟩, "F")]).ops =
      [⟨"B", 1, "x1", Payload.whole ⟨some "x1", some "x1", none, 0, "s"⟩,
        none, 0⟩]
    ∧ (txnBoardOps
        ⟨[], [⟨"B", 1, "x1", Payload.whole ⟨some "x1", some "x1", none, 0, "s"⟩,
          none, 0⟩], [], [(counterKey "B", 1)]⟩ "B" none 7
        [(⟨some "x1", some "x1", none, 0, "s"⟩, "F")]).counters =
      [(counterKey "B", 1)]
    ∧ (restoreOpsGo
        ⟨[], [⟨"B", 1, "x1", Payload.whole ⟨some "x1", some "x1", none, 0, "s"⟩,
          none, 0⟩], [], [(counterKey "B", 1)]⟩ "B" 0
        [⟨"x1", 1, Payload.whole ⟨some "x1", some "x1", none, 0, "s"⟩,
          none, 0⟩]).1 =
      ⟨[], [⟨"B", 1, "x1", Payload.whole ⟨some "x1", some "x1", none, 0, "s"⟩,
        none, 0⟩], [], [(counterKey "B", 1)]⟩ :=
  claim_C1_idempotent_append
    ⟨[], [⟨"B", 1, "x1", Payload.whole ⟨some "x1", some "x1", none, 0, "s"⟩,
      none, 0⟩], [], [(counterKey "B", 1)]⟩ "B" none 7
    [(⟨some "x1", some "x1", none, 0, "s"⟩, "F")] 0
    [⟨"x1", 1, Payload.whole ⟨some "x1", some "x1", none, 0, "s"⟩, none, 0⟩]
    (by decide) (by decide)

/-! ## C2: monotonic sequence numbers -/

theorem seqInv_of_eq (db db' : DB) (hops : db'.ops = db.ops)
    (hcnt : db'.counters = db.counters) (h : SeqInv db) : SeqInv db' := by
  intro b
  have hbs : boardSeqs db' b = boardSeqs db b := by
    unfold boardSeqs; rw [hops]
  have hcv : getCounterVal db' b = getCounterVal db b := by
    unfold getCounterVal; rw [hcnt]
  rw [hbs, hcv]
  exact h b

theorem seqInv_extend (db : DB) (b oid : String) (pl : Payload)
    (a : Option String) (n : Nat) (h : SeqInv db) :
    SeqInv { db with
        counters := cset db.counters (counterKey b) (getCounterVal db b + 1),
        ops := db.ops ++
          [{ boardId := b, seq := getCounterVal db b + 1, opId := oid,
             op := pl, authorId := a, ts := n }] } := by
  intro b'
  by_cases hb : b' = b
  · subst hb
    have hseqs : boardSeqs { db with
        counters := cset db.counters (counterKey b') (getCounterVal db b' + 1),
        ops := db.ops ++
          [{ boardId := b', seq := getCounterVal db b' + 1, opId := oid,
             op := pl, authorId := a, ts := n }] } b'
        = boardSeqs db b' ++ [getCounterVal db b' + 1] := by
      unfold boardSeqs
      simp [List.filter_append]
    have hcv : getCounterVal { db with
        counters := cset db.counters (counterKey b') (getCounterVal db b' + 1),
        ops := db.ops ++
          [{ boardId := b', seq := getCounterVal db b' + 1, opId := oid,
             op := pl, authorId := a, ts := n }] } b'
        = getCounterVal db b' + 1 := by
      unfold getCounterVal
      simp [clookup_cset_self]
    rw [hseqs, hcv]
    obtain ⟨hch, hbd⟩ := h b'
    refine ⟨?_, ?_⟩
    · rw [List.chain'_append]
      refine ⟨hch, List.chain'_singleton _, ?_⟩
      intro x hx y hy
      simp only [List.head?_cons, Option.mem_def, Option.some.injEq] at hy
      subst hy
      exact Nat.lt_succ_of_le (hbd x (List.mem_of_getLast?_eq_some hx))
    · intro s hs
      rcases List.mem_append.mp hs with h1 | h1
      · exact Nat.le_succ_of_le (hbd s h1)
      · simp at h1; omega
  · have hbne : b ≠ b' := fun hc => hb hc.symm
    have hbeq : (b == b') = false := by simp [hbne]
    have hseqs : boardSeqs { db with
        counters := cset db.counters (counterKey b) (getCounterVal db b + 1),
        ops := db.ops ++
          [{ boardId := b, seq := getCounterVal db b + 1, opId := oid,
             op := pl, authorId := a, ts := n }] } b'
        = boardSeqs db b' := by
      unfold boardSeqs
      simp [List.filter_append, hbeq]
    have hcv : getCounterVal { db with
        counters := cset db.counters (counterKey b) (getCounterVal db b + 1),
        ops := db.ops ++
          [{ boardId := b, seq := getCounterVal db b + 1, opId := oid,
             op := pl, authorId := a, ts := n }] } b'
        = getCounterVal db b' := by
      unfold getCounterVal
      have hk : counterKey b' ≠ counterKey b := fun hc => hb (counterKey_inj hc)
      rw [clookup_cset_ne _ _ _ _ hk]
    rw [hseqs, hcv]
    exact h b'

theorem seqInv_insertItem (db : DB) (b : String) (a : Option String)
    (n : Nat) (it : WireOp) (u : String) (h : SeqInv db) :
    SeqInv (insertItem db b a n it u) := by
  cases hf : findOp db b (resolveOpId it u) with
  | some r =>
    rw [insertItem_of_found db b a n it u r hf]
    exact h
  | none =>
    rw [insertItem_of_not_found db b a n it u hf]
    exact seqInv_extend db b (resolveOpId it u) (storedPayload it) a n h

theorem seqInv_insertItems (db : DB) (b : String) (a : Option String)
    (n : Nat) (items : List (WireOp × String)) (h : SeqInv db) :
    SeqInv (insertItems db b a n items) := by
  induction items generalizing db with
  | nil => exact h
  | cons p rest ih =>
    obtain ⟨it, u⟩ := p
    exact ih (insertItem db b a n it u) (seqInv_insertItem db b a n it u h)

theorem seqInv_txnBoardOps (db : DB) (b : String) (a : Option String)
    (n : Nat) (items : List (WireOp × String)) (h : SeqInv db) :
    SeqInv (txnBoardOps db b a n items) :=
  seqInv_of_eq (insertItems db b a n items) (txnBoardOps db b a n items)
    (maybeCheckpoint_ops _ _ _) (maybeCheckpoint_counters _ _ _)
    (seqInv_insertItems db b a n items h)

theorem seqInv_empty : SeqInv emptyDB := by
  intro b
  constructor
  · simp [boardSeqs, emptyDB]
  · intro s hs
    simp [boardSeqs, emptyDB] at hs

/-- C2 (monotonic sequence): the allocator's first allocation for a board
returns 1 (the counter is upserted from the default 0), successive
allocations return strictly increasing values, and — starting from any
well-formed database — the sequence numbers of a board's stored operation
records, in insertion order, stay strictly increasing (hence duplicate-free)
across any `board:ops` batch. -/
theorem claim_C2_monotonic_sequence (db : DB) (b : String)
    (author : Option String) (now : Nat) (items : List (WireOp × String))
    (hinv : SeqInv db) :
    (clookup db.counters (counterKey b) = none → (nextBoardSeq db b).1 = 1)
    ∧ (nextBoardSeq db b).1 < (nextBoardSeq (nextBoardSeq db b).2 b).1
    ∧ SeqInv (txnBoardOps db b author now items)
    ∧ List.Chain' (· < ·)
        (boardSeqs (txnBoardOps db b author now items) b) := by
  refine ⟨?_, ?_, ?_, ?_⟩
  · intro h0
    simp [nextBoardSeq, h0]
  · have e1 : (nextBoardSeq db b).1 = getCounterVal db b + 1 := rfl
    have e2 : (nextBoardSeq (nextBoardSeq db b).2 b).1 =
        getCounterVal (nextBoardSeq db b).2 b + 1 := rfl
    rw [e1, e2, getCounterVal_next_self]
    omega
  · exact seqInv_txnBoardOps db b author now items hinv
  · exact (seqInv_txnBoardOps db b author now items hinv b).1

/-- Witness for C2, on the empty database and board `B`: the first
allocation returns 1, the next one is larger, and a processed batch keeps
the stored sequence numbers strictly increasing. -/
theorem claim_C2_witness :
    SeqInv emptyDB
    ∧ (nextBoardSeq emptyDB "B").1 = 1
    ∧ (nextBoardSeq emptyDB "B").1 <
        (nextBoardSeq (nextBoardSeq emptyDB "B").2 "B").1
    ∧ SeqInv (txnBoardOps emptyDB "B" none 0
        [(⟨some "x1", some "x1", none, 0, "s"⟩, "F")])
    ∧ List.Chain' (· < ·) (boardSeqs (txnBoardOps emptyDB "B" none 0
        [(⟨some "x1", some "x1", none, 0, "s"⟩, "F")]) "B") := by
  have h := claim_C2_monotonic_sequence emptyDB "B" none 0
    [(⟨some "x1", some "x1", none, 0, "s"⟩, "F")] seqInv_empty
  exact ⟨seqInv_empty, h.1 (by decide), h.2.1, h.2.2.1, h.2.2.2⟩

/-! ## C4: checkpoint cadence -/

set_option maxRecDepth 100000 in
set_option maxHeartbeats 4000000 in
/-- C4 counterexample: the claim requires a snapshot after exactly 200
logged distinct operations regardless of batch grouping.  Submitting the
200 distinct operations grouped as a 199-op batch followed by a 2-op batch
(crossing the boundary mid-batch) logs 201 operations and produces no
snapshot at all: the modulo-200 check runs only once per batch, after all
of the batch's inserts. -/
theorem claim_C4_counterexample :
    countOps chkDB1 "B" = 199 ∧ countOps chkDB2 "B" = 201 ∧
    chkDB2.snapshots = [] := by
  decide

/-- C4 (amended): the checkpoint check runs once per submitted batch, after
the batch's inserts: when the post-batch operation count of the board is
divisible by 200 (and the board exists), exactly one new snapshot record is
appended with version `previous snapshot count + 1`; otherwise the batch
creates no snapshot — in particular a batch that crosses the 200-operation
boundary without landing on a multiple of 200 creates none. -/
theorem claim_C4_checkpoint_cadence_amended (db : DB) (b : String)
    (author : Option String) (now : Nat) (items : List (WireOp × String))
    (bd : Board) (hb : findBoard db b = some bd) :
    (countOps (insertItems db b author now items) b % 200 = 0 →
      (txnBoardOps db b author now items).snapshots = db.snapshots ++
        [⟨b, countSnaps db b + 1, bd.document.tldraw,
          hashObj bd.document.tldraw, now⟩])
    ∧ (countOps (insertItems db b author now items) b % 200 ≠ 0 →
      (txnBoardOps db b author now items).snapshots = db.snapshots) := by
  have hbds : (insertItems db b author now items).boards = db.boards :=
    insertItems_boards db b author now items
  have hfb : findBoard (insertItems db b author now items) b = some bd := by
    rw [show findBoard (insertItems db b author now items) b = findBoard db b
      from by unfold findBoard; rw [hbds]]
    exact hb
  have hsn : (insertItems db b author now items).snapshots = db.snapshots :=
    insertItems_snapshots db b author now items
  have hcs : countSnaps (insertItems db b author now items) b =
      countSnaps db b := by
    unfold countSnaps; rw [hsn]
  constructor
  · intro hmod
    unfold txnBoardOps maybeCheckpoint
    rw [if_pos hmod]
    simp only [hfb]
    rw [hsn, hcs]
  · intro hmod
    unfold txnBoardOps maybeCheckpoint
    rw [if_neg hmod]
    exact hsn

/-- Witness for C4 (amended): on the fresh one-board database, an empty
batch leaves the count at 0 (divisible by 200) and writes snapshot
version 1, while a one-op batch leaves the count at 1 and writes none. -/
theorem claim_C4_witness :
    (txnBoardOps chkDB0 "B" none 0 []).snapshots = chkDB0.snapshots ++
      [⟨"B", countSnaps chkDB0 "B" + 1, chkBoard.document.tldraw,
        hashObj chkBoard.document.tldraw, 0⟩]
    ∧ (txnBoardOps chkDB0 "B" none 0
        [(⟨some "z", some "z", none, 0, "s"⟩, "F")]).snapshots =
      chkDB0.snapshots :=
  ⟨(claim_C4_checkpoint_cadence_amended chkDB0 "B" none 0 [] chkBoard
      (by decide)).1 (by decide),
   (claim_C4_checkpoint_cadence_amended chkDB0 "B" none 0
      [(⟨some "z", some "z", none, 0, "s"⟩, "F")] chkBoard
      (by decide)).2 (by decide)⟩

/-! ## C7, C8: the restore tool -/

theorem restoreOpsGo_counters (db : DB) (b : String) (m : Nat)
    (arts : List ArtOp) :
    ((restoreOpsGo db b m arts).1).counters = db.counters := by
  induction arts generalizing db m with
  | nil => rfl
  | cons it rest ih =>
    unfold restoreOpsGo
    cases hf : findOp db b it.opId with
    | some r => exact ih db (max m r.seq)
    | none => exact ih _ (max m it.seq)

theorem restoreOpsGo_ops_extend (db : DB) (b : String) (m : Nat)
    (arts : List ArtOp) :
    ∃ t, ((restoreOpsGo db b m arts).1).ops = db.ops ++ t := by
  induction arts generalizing db m with
  | nil => exact ⟨[], by simp [restoreOpsGo]⟩
  | cons it rest ih =>
    unfold restoreOpsGo
    cases hf : findOp db b it.opId with
    | some r => exact ih db (max m r.seq)
    | none =>
      obtain ⟨t, ht⟩ :=
        ih { db with ops := db.ops ++ [artRecord b it] } (max m it.seq)
      refine ⟨artRecord b it :: t, ?_⟩
      show ((restoreOpsGo { db with ops := db.ops ++ [artRecord b it] } b
        (max m it.seq) rest).1).ops = db.ops ++ (artRecord b it :: t)
      rw [ht]
      simp

theorem restoreOpsGo_found_stable (db : DB) (b : String) (m : Nat)
    (arts : List ArtOp) (o : String) (r : OpRecord)
    (h : findOp db b o = some r) :
    findOp ((restoreOpsGo db b m arts).1) b o = some r := by
  obtain ⟨t, ht⟩ := restoreOpsGo_ops_extend db b m arts
  unfold findOp at h ⊢
  rw [ht]
  exact findOpL_append_found _ _ _ _ _ h

theorem findOp_insert_artRecord (db : DB) (b : String) (it : ArtOp)
    (hf : findOp db b it.opId = none) :
    findOp { db with ops := db.ops ++ [artRecord b it] } b it.opId =
      some (artRecord b it) := by
  unfold findOp at hf ⊢
  exact findOpL_append_self db.ops b it.opId _ hf rfl rfl

theorem restoreOpsGo_all_found (db : DB) (b : String) (m : Nat)
    (arts : List ArtOp) :
    ∀ x ∈ arts, (findOp ((restoreOpsGo db b m arts).1) b x.opId).isSome
      = true := by
  induction arts generalizing db m with
  | nil => intro x hx; simp at hx
  | cons it rest ih =>
    intro x hx
    unfold restoreOpsGo
    cases hf : findOp db b it.opId with
    | some r =>
      show (findOp ((restoreOpsGo db b (max m r.seq) rest).1) b
        x.opId).isSome = true
      rcases List.mem_cons.mp hx with hx1 | hx2
      · subst hx1
        rw [restoreOpsGo_found_stable db b (max m r.seq) rest x.opId r hf]
        rfl
      · exact ih db (max m r.seq) x hx2
    | none =>
      show (findOp ((restoreOpsGo { db with ops := db.ops ++ [artRecord b it] }
        b (max m it.seq) rest).1) b x.opId).isSome = true
      rcases List.mem_cons.mp hx with hx1 | hx2
      · subst hx1
        rw [restoreOpsGo_found_stable _ b (max m x.seq) rest x.opId _
          (findOp_insert_artRecord db b x hf)]
        rfl
      · exact ih _ (max m it.seq) x hx2

theorem restoreOpsGo_max_eq (db : DB) (b : String) (m : Nat)
    (arts : List ArtOp) :
    (restoreOpsGo db b m arts).2 =
      msFold ((restoreOpsGo db b m arts).1).ops b m arts := by
  induction arts generalizing db m with
  | nil => rfl
  | cons it rest ih =>
    unfold restoreOpsGo
    cases hf : findOp db b it.opId with
    | some r =>
      show (restoreOpsGo db b (max m r.seq) rest).2 =
        msFold ((restoreOpsGo db b (max m r.seq) rest).1).ops b m (it :: rest)
      rw [ih db (max m r.seq)]
      have hst : findOpL ((restoreOpsGo db b (max m r.seq) rest).1).ops b
          it.opId = some r :=
        restoreOpsGo_found_stable db b (max m r.seq) rest it.opId r hf
      unfold msFold
      rw [List.foldl_cons, hst]
      rfl
    | none =>
      show (restoreOpsGo { db with ops := db.ops ++ [artRecord b it] } b
          (max m it.seq) rest).2 =
        msFold ((restoreOpsGo { db with ops := db.ops ++ [artRecord b it] } b
          (max m it.seq) rest).1).ops b m (it :: rest)
      rw [ih _ (max m it.seq)]
      have hst : findOpL ((restoreOpsGo
          { db with ops := db.ops ++ [artRecord b it] } b
          (max m it.seq) rest).1).ops b it.opId = some (artRecord b it) :=
        restoreOpsGo_found_stable _ b (max m it.seq) rest it.opId _
          (findOp_insert_artRecord db b it hf)
      unfold msFold
      rw [List.foldl_cons, hst]
      rfl

theorem restoreBoardPhase_ops (db : DB) (a : Artifact) (n : Nat) :
    (restoreBoardPhase db a n).ops = db.ops := by
  unfold restoreBoardPhase
  cases findBoard db a.boardId <;> rfl

theorem restoreBoardPhase_counters (db : DB) (a : Artifact) (n : Nat) :
    (restoreBoardPhase db a n).counters = db.counters := by
  unfold restoreBoardPhase
  cases findBoard db a.boardId <;> rfl

theorem restoreSnapshotPhase_ops (db : DB) (a : Artifact) (n : Nat) :
    (restoreSnapshotPhase db a n).ops = db.ops := by
  unfold restoreSnapshotPhase
  cases a.snapshot <;> rfl

theorem restoreSnapshotPhase_counters (db : DB) (a : Artifact) (n : Nat) :
    (restoreSnapshotPhase db a n).counters = db.counters := by
  unfold restoreSnapshotPhase
  cases a.snapshot <;> rfl

theorem reconcileCounter_ops (db : DB) (b : String) (m : Nat) :
    (reconcileCounter db b m).ops = db.ops := by
  unfold reconcileCounter
  cases clookup db.counters (counterKey b) with
  | none => rfl
  | some v =>
    show ((if v < m then
      { db with counters := cset db.counters (counterKey b) m }
      else db) : DB).ops = db.ops
    split <;> rfl

theorem getCounterVal_reconcile (db : DB) (b : String) (m : Nat) :
    getCounterVal (reconcileCounter db b m) b =
      max (getCounterVal db b) m := by
  unfold reconcileCounter getCounterVal
  cases h : clookup db.counters (counterKey b) with
  | none => simp [h, clookup_cset_self]
  | some v =>
    by_cases hv : v < m
    · simp [h, hv, clookup_cset_self]
      omega
    · simp [h, hv]
      omega

theorem le_msFold (l : List OpRecord) (b : String) (m : Nat)
    (arts : List ArtOp) : m ≤ msFold l b m arts := by
  induction arts generalizing m with
  | nil => exact Nat.le_refl m
  | cons it rest ih =>
    unfold msFold
    rw [List.foldl_cons]
    exact Nat.le_trans (Nat.le_max_left _ _) (ih _)

theorem msFold_mem_ge (l : List OpRecord) (b : String) (m : Nat)
    (arts : List ArtOp) (x : ArtOp) (hx : x ∈ arts) :
    seqOf (findOpL l b x.opId) ≤ msFold l b m arts := by
  induction arts generalizing m with
  | nil => simp at hx
  | cons it rest ih =>
    unfold msFold
    rw [List.foldl_cons]
    rcases List.mem_cons.mp hx with h1 | h2
    · subst h1
      exact Nat.le_trans (Nat.le_max_right _ _) (le_msFold l b _ rest)
    · exact ih _ h2

/-- C7 (restore idempotence): running the restore tool twice with the same
export artifact against an initially empty database leaves, after the
second run, the operation records and the sequence counters exactly as
they were after the first run — no record is duplicated and the counter is
not double-counted. -/
theorem claim_C7_restore_idempotence (a : Artifact) (n1 n2 : Nat) :
    (restore (restore emptyDB a n1) a n2).ops = (restore emptyDB a n1).ops
    ∧ (restore (restore emptyDB a n1) a n2).counters =
        (restore emptyDB a n1).counters := by
  have hP1cnt : ((restoreOpsGo (restoreSnapshotPhase
      (restoreBoardPhase emptyDB a n1) a n1) a.boardId 0 a.ops).1).counters
      = [] := by
    rw [restoreOpsGo_counters, restoreSnapshotPhase_counters,
      restoreBoardPhase_counters]
    rfl
  -- Run 1 creates the counter fresh at the computed maxSeq.
  have hArec : restore emptyDB a n1 =
      { (restoreOpsGo (restoreSnapshotPhase (restoreBoardPhase emptyDB a n1)
          a n1) a.boardId 0 a.ops).1 with
        counters := [(counterKey a.boardId,
          (restoreOpsGo (restoreSnapshotPhase (restoreBoardPhase emptyDB a
            n1) a n1) a.boardId 0 a.ops).2)] } := by
    rw [show restore emptyDB a n1 =
        reconcileCounter
          (restoreOpsGo (restoreSnapshotPhase (restoreBoardPhase emptyDB a
            n1) a n1) a.boardId 0 a.ops).1 a.boardId
          (restoreOpsGo (restoreSnapshotPhase (restoreBoardPhase emptyDB a
            n1) a n1) a.boardId 0 a.ops).2 from rfl]
    unfold reconcileCounter
    rw [hP1cnt]
    rfl
  have hB2ops : (restoreSnapshotPhase (restoreBoardPhase
      (restore emptyDB a n1) a n2) a n2).ops = (restore emptyDB a n1).ops
      := by
    rw [restoreSnapshotPhase_ops, restoreBoardPhase_ops]
  have hB2cnt : (restoreSnapshotPhase (restoreBoardPhase
      (restore emptyDB a n1) a n2) a n2).counters =
      (restore emptyDB a n1).counters := by
    rw [restoreSnapshotPhase_counters, restoreBoardPhase_counters]
  have hfound : ∀ x ∈ a.ops,
      (findOp (restoreSnapshotPhase (restoreBoardPhase
        (restore emptyDB a n1) a n2) a n2) a.boardId x.opId).isSome
        = true := by
    intro x hx
    have h1 := restoreOpsGo_all_found (restoreSnapshotPhase
      (restoreBoardPhase emptyDB a n1) a n1) a.boardId 0 a.ops x hx
    unfold findOp at h1 ⊢
    rw [hB2ops, hArec]
    exact h1
  have hrun2 : restore (restore emptyDB a n1) a n2 =
      reconcileCounter
        (restoreOpsGo (restoreSnapshotPhase (restoreBoardPhase
          (restore emptyDB a n1) a n2) a n2) a.boardId 0 a.ops).1 a.boardId
        (restoreOpsGo (restoreSnapshotPhase (restoreBoardPhase
          (restore emptyDB a n1) a n2) a n2) a.boardId 0 a.ops).2 := rfl
  have hskip := restoreOpsGo_skip_all (restoreSnapshotPhase
    (restoreBoardPhase (restore emptyDB a n1) a n2) a n2) a.boardId 0 a.ops
    hfound
  constructor
  · rw [hrun2, reconcileCounter_ops, hskip]
    exact hB2ops
  · rw [hrun2, hskip]
    -- the second run's maxSeq equals the first run's
    have hm2 : msFold (restoreSnapshotPhase (restoreBoardPhase
        (restore emptyDB a n1) a n2) a n2).ops a.boardId 0 a.ops =
        (restoreOpsGo (restoreSnapshotPhase (restoreBoardPhase emptyDB a n1)
          a n1) a.boardId 0 a.ops).2 := by
      rw [hB2ops, hArec]
      exact (restoreOpsGo_max_eq (restoreSnapshotPhase
        (restoreBoardPhase emptyDB a n1) a n1) a.boardId 0 a.ops).symm
    show (reconcileCounter (restoreSnapshotPhase (restoreBoardPhase
        (restore emptyDB a n1) a n2) a n2) a.boardId
        (msFold (restoreSnapshotPhase (restoreBoardPhase
          (restore emptyDB a n1) a n2) a n2).ops a.boardId 0
          a.ops)).counters = (restore emptyDB a n1).counters
    rw [hm2]
    unfold reconcileCounter
    rw [hB2cnt, hArec]
    rw [show clookup [(counterKey a.boardId,
        (restoreOpsGo (restoreSnapshotPhase (restoreBoardPhase emptyDB a n1)
          a n1) a.boardId 0 a.ops).2)] (counterKey a.boardId) =
        some (restoreOpsGo (restoreSnapshotPhase (restoreBoardPhase emptyDB
          a n1) a n1) a.boardId 0 a.ops).2 from by simp [clookup]]
    simp
    rw [restoreSnapshotPhase_counters, restoreBoardPhase_counters]

/-- C8 (upward-only counter reconciliation): after restore, the board's
sequence counter is at least the restore loop's maximum sequence number —
which bounds the stored sequence number of every restored operation
record — it equals that maximum when the counter was absent or smaller,
and an existing counter value is never decreased. -/
theorem claim_C8_counter_upward (db : DB) (a : Artifact) (now : Nat) :
    restoreMaxSeq db a now ≤ getCounterVal (restore db a now) a.boardId
    ∧ (∀ x ∈ a.ops, ∀ r : OpRecord,
        findOp (restoreMidDB db a now) a.boardId x.opId = some r →
        r.seq ≤ getCounterVal (restore db a now) a.boardId)
    ∧ (clookup db.counters (counterKey a.boardId) = none →
        getCounterVal (restore db a now) a.boardId = restoreMaxSeq db a now)
    ∧ ∀ v, clookup db.counters (counterKey a.boardId) = some v →
        v ≤ getCounterVal (restore db a now) a.boardId
        ∧ (v < restoreMaxSeq db a now →
            getCounterVal (restore db a now) a.boardId =
              restoreMaxSeq db a now) := by
  have hmidcnt : (restoreMidDB db a now).counters = db.counters := by
    unfold restoreMidDB
    rw [restoreOpsGo_counters, restoreSnapshotPhase_counters,
      restoreBoardPhase_counters]
  have hrev : restore db a now =
      reconcileCounter (restoreMidDB db a now) a.boardId
        (restoreMaxSeq db a now) := rfl
  have hval : getCounterVal (restore db a now) a.boardId =
      max (getCounterVal (restoreMidDB db a now) a.boardId)
        (restoreMaxSeq db a now) := by
    rw [hrev]
    exact getCounterVal_reconcile _ _ _
  have hmidval : getCounterVal (restoreMidDB db a now) a.boardId =
      getCounterVal db a.boardId := by
    unfold getCounterVal
    rw [hmidcnt]
  refine ⟨?_, ?_, ?_, ?_⟩
  · rw [hval]
    exact Nat.le_max_right _ _
  · intro x hx r hr
    have hmax : restoreMaxSeq db a now =
        msFold (restoreMidDB db a now).ops a.boardId 0 a.ops := by
      unfold restoreMaxSeq restoreMidDB
      exact restoreOpsGo_max_eq _ _ _ _
    have h1 : seqOf (findOpL (restoreMidDB db a now).ops a.boardId x.opId) ≤
        msFold (restoreMidDB db a now).ops a.boardId 0 a.ops :=
      msFold_mem_ge _ _ _ _ x hx
    unfold findOp at hr
    rw [hr] at h1
    rw [hval]
    have h2 : r.seq ≤ restoreMaxSeq db a now := by
      rw [hmax]
      exact h1
    exact Nat.le_trans h2 (Nat.le_max_right _ _)
  · intro h0
    rw [hval, hmidval]
    unfold getCounterVal
    rw [h0]
    simp
  · intro v hv
    have hveq : getCounterVal db a.boardId = v := by
      unfold getCounterVal
      rw [hv]
      rfl
    constructor
    · rw [hval, hmidval, hveq]
      exact Nat.le_max_left _ _
    · intro hlt
      rw [hval, hmidval, hveq]
      omega

/-- Witness for C8: restoring an artifact holding one op with seq 5 into a
database whose counter for board `B` is 1 raises the counter to exactly 5,
never below the restored records' sequence numbers. -/
theorem claim_C8_witness :
    restoreMaxSeq ⟨[], [], [], [(counterKey "B", 1)]⟩
        ⟨"B", "t", 0, "", none,
          [⟨"x", 5, Payload.inner ⟨none, "p"⟩, none, 0⟩], [], []⟩ 0 ≤
      getCounterVal (restore ⟨[], [], [], [(counterKey "B", 1)]⟩
        ⟨"B", "t", 0, "", none,
          [⟨"x", 5, Payload.inner ⟨none, "p"⟩, none, 0⟩], [], []⟩ 0) "B"
    ∧ (5 : Nat) ≤
      getCounterVal (restore ⟨[], [], [], [(counterKey "B", 1)]⟩
        ⟨"B", "t", 0, "", none,
          [⟨"x", 5, Payload.inner ⟨none, "p"⟩, none, 0⟩], [], []⟩ 0) "B"
    ∧ (1 : Nat) ≤
      getCounterVal (restore ⟨[], [], [], [(counterKey "B", 1)]⟩
        ⟨"B", "t", 0, "", none,
          [⟨"x", 5, Payload.inner ⟨none, "p"⟩, none, 0⟩], [], []⟩ 0) "B"
    ∧ getCounterVal (restore ⟨[], [], [], [(counterKey "B", 1)]⟩
        ⟨"B", "t", 0, "", none,
          [⟨"x", 5, Payload.inner ⟨none, "p"⟩, none, 0⟩], [], []⟩ 0) "B" =
      restoreMaxSeq ⟨[], [], [], [(counterKey "B", 1)]⟩
        ⟨"B", "t", 0, "", none,
          [⟨"x", 5, Payload.inner ⟨none, "p"⟩, none, 0⟩], [], []⟩ 0 := by
  have h := claim_C8_counter_upward ⟨[], [], [], [(counterKey "B", 1)]⟩
    ⟨"B", "t", 0, "", none,
      [⟨"x", 5, Payload.inner ⟨none, "p"⟩, none, 0⟩], [], []⟩ 0
  have h4 := h.2.2.2 1 (by decide)
  exact ⟨h.1,
    h.2.1 ⟨"x", 5, Payload.inner ⟨none, "p"⟩, none, 0⟩ (by decide)
      ⟨"B", 5, "x", Payload.inner ⟨none, "p"⟩, none, 0⟩ (by decide),
    h4.1, h4.2 (by decide)⟩

/-! ## C9: the persistence-buffer merge policy -/

theorem mapUpsert_mem (acc : List WireOp) (op : WireOp) :
    ∀ x ∈ mapUpsert acc op, x ∈ acc ∨ x = op := by
  induction acc with
  | nil =>
    intro x hx
    simp [mapUpsert] at hx
    exact Or.inr hx
  | cons y ys ih =>
    intro x hx
    unfold mapUpsert at hx
    by_cases hk : bufKey y = bufKey op
    · rw [if_pos hk] at hx
      rcases List.mem_cons.mp hx with h1 | h2
      · by_cases hts : y.ts ≤ op.ts
        · rw [if_pos hts] at h1
          exact Or.inr h1
        · rw [if_neg hts] at h1
          exact Or.inl (by rw [h1]; exact List.mem_cons_self y ys)
      · exact Or.inl (List.mem_cons_of_mem _ h2)
    · rw [if_neg hk] at hx
      rcases List.mem_cons.mp hx with h1 | h2
      · exact Or.inl (by rw [h1]; exact List.mem_cons_self y ys)
      · rcases ih x h2 with h3 | h3
        · exact Or.inl (List.mem_cons_of_mem _ h3)
        · exact Or.inr h3

theorem mapUpsert_keys (acc : List WireOp) (op : WireOp) :
    bufKeys (mapUpsert acc op) =
      if bufKey op ∈ bufKeys acc then bufKeys acc
      else bufKeys acc ++ [bufKey op] := by
  induction acc with
  | nil => simp [mapUpsert, bufKeys]
  | cons y ys ih =>
    unfold mapUpsert
    by_cases hk : bufKey y = bufKey op
    · rw [if_pos hk]
      have hkeys : bufKeys ((if y.ts ≤ op.ts then op else y) :: ys) =
          bufKey y :: bufKeys ys := by
        by_cases hts : y.ts ≤ op.ts
        · rw [if_pos hts]
          show bufKey op :: bufKeys ys = bufKey y :: bufKeys ys
          rw [hk]
        · rw [if_neg hts]
          rfl
      rw [hkeys]
      have hmem : bufKey op ∈ bufKeys (y :: ys) := by
        show bufKey op ∈ bufKey y :: bufKeys ys
        rw [hk]
        exact List.mem_cons_self _ _
      rw [if_pos hmem]
      rfl
    · rw [if_neg hk]
      have h1 : bufKeys (y :: mapUpsert ys op) =
          bufKey y :: bufKeys (mapUpsert ys op) := rfl
      rw [h1, ih]
      by_cases hmem : bufKey op ∈ bufKeys ys
      · rw [if_pos hmem]
        have hmem2 : bufKey op ∈ bufKeys (y :: ys) := by
          show bufKey op ∈ bufKey y :: bufKeys ys
          exact List.mem_cons_of_mem _ hmem
        rw [if_pos hmem2]
        rfl
      · rw [if_neg hmem]
        have hmem2 : bufKey op ∉ bufKeys (y :: ys) := by
          show bufKey op ∉ bufKey y :: bufKeys ys
          intro hc
          rcases List.mem_cons.mp hc with hc1 | hc2
          · exact hk hc1.symm
          · exact hmem hc2
        rw [if_neg hmem2]
        rfl

theorem mapUpsert_keys_mem (acc : List WireOp) (op : WireOp)
    (k : Option String) :
    k ∈ bufKeys (mapUpsert acc op) ↔ k ∈ bufKeys acc ∨ k = bufKey op := by
  rw [mapUpsert_keys]
  by_cases hmem : bufKey op ∈ bufKeys acc
  · rw [if_pos hmem]
    constructor
    · exact Or.inl
    · rintro (h | h)
      · exact h
      · rw [h]; exact hmem
  · rw [if_neg hmem]
    simp

theorem nodup_keys_eq (l : List WireOp) (hnd : (bufKeys l).Nodup)
    (x y : WireOp) (hx : x ∈ l) (hy : y ∈ l) (hk : bufKey x = bufKey y) :
    x = y :=
  List.inj_on_of_nodup_map hnd hx hy hk

theorem mapUpsert_dominates : ∀ (acc : List WireOp) (op : WireOp),
    (bufKeys acc).Nodup →
    ∀ x ∈ mapUpsert acc op, ∀ z ∈ acc, bufKey z = bufKey x → z.ts ≤ x.ts := by
  intro acc op
  induction acc with
  | nil =>
    intro _ x hx z hz
    simp at hz
  | cons y ys ih =>
    intro hnd x hx z hz hkzx
    have h0 : bufKeys (y :: ys) = bufKey y :: bufKeys ys := rfl
    rw [h0] at hnd
    have hndy : (bufKeys ys).Nodup := (List.nodup_cons.mp hnd).2
    have hynotin : bufKey y ∉ bufKeys ys := (List.nodup_cons.mp hnd).1
    unfold mapUpsert at hx
    by_cases hk : bufKey y = bufKey op
    · rw [if_pos hk] at hx
      rcases List.mem_cons.mp hx with h1 | h2
      · have hkx : bufKey x = bufKey y := by
          by_cases hts : y.ts ≤ op.ts
          · rw [if_pos hts] at h1
            rw [h1, ← hk]
          · rw [if_neg hts] at h1
            rw [h1]
        have hyts : y.ts ≤ x.ts := by
          by_cases hts : y.ts ≤ op.ts
          · rw [if_pos hts] at h1
            rw [h1]
            exact hts
          · rw [if_neg hts] at h1
            rw [h1]
        rcases List.mem_cons.mp hz with hz1 | hz2
        · rw [hz1]
          exact hyts
        · exfalso
          apply hynotin
          have hzy : bufKey z = bufKey y := by rw [hkzx, hkx]
          rw [← hzy]
          exact List.mem_map_of_mem bufKey hz2
      · rcases List.mem_cons.mp hz with hz1 | hz2
        · exfalso
          apply hynotin
          have hyx : bufKey y = bufKey x := by rw [← hz1]; exact hkzx
          rw [hyx]
          exact List.mem_map_of_mem bufKey h2
        · have hzx := nodup_keys_eq ys hndy z x hz2 h2 hkzx
          rw [hzx]
    · rw [if_neg hk] at hx
      rcases List.mem_cons.mp hx with h1 | h2
      · rcases List.mem_cons.mp hz with hz1 | hz2
        · rw [hz1, h1]
        · exfalso
          apply hynotin
          have hzy : bufKey z = bufKey y := by rw [hkzx, h1]
          rw [← hzy]
          exact List.mem_map_of_mem bufKey hz2
      · rcases List.mem_cons.mp hz with hz1 | hz2
        · exfalso
          have hxk : bufKey x ∈ bufKeys (mapUpsert ys op) :=
            List.mem_map_of_mem bufKey h2
          rw [mapUpsert_keys_mem] at hxk
          have hyx : bufKey y = bufKey x := by rw [← hz1]; exact hkzx
          rcases hxk with hxk1 | hxk2
          · apply hynotin
            rw [hyx]
            exact hxk1
          · apply hk
            rw [hyx, hxk2]
        · exact ih hndy x h2 z hz2 hkzx

theorem mapUpsert_ge_op : ∀ (acc : List WireOp) (op : WireOp),
    (bufKeys acc).Nodup →
    ∀ x ∈ mapUpsert acc op, bufKey x = bufKey op → op.ts ≤ x.ts := by
  intro acc op
  induction acc with
  | nil =>
    intro _ x hx _
    simp [mapUpsert] at hx
    rw [hx]
  | cons y ys ih =>
    intro hnd x hx hkx
    have h0 : bufKeys (y :: ys) = bufKey y :: bufKeys ys := rfl
    rw [h0] at hnd
    have hndy : (bufKeys ys).Nodup := (List.nodup_cons.mp hnd).2
    have hynotin : bufKey y ∉ bufKeys ys := (List.nodup_cons.mp hnd).1
    unfold mapUpsert at hx
    by_cases hky : bufKey y = bufKey op
    · rw [if_pos hky] at hx
      rcases List.mem_cons.mp hx with h1 | h2
      · by_cases hts : y.ts ≤ op.ts
        · rw [if_pos hts] at h1
          rw [h1]
        · rw [if_neg hts] at h1
          rw [h1]
          omega
      · exfalso
        apply hynotin
        rw [hky, ← hkx]
        exact List.mem_map_of_mem bufKey h2
    · rw [if_neg hky] at hx
      rcases List.mem_cons.mp hx with h1 | h2
      · exfalso
        apply hky
        rw [← h1]
        exact hkx
      · exact ih hndy x h2 hkx

theorem mergeInv_step (acc pr : List WireOp) (op : WireOp)
    (h : MergeInv acc pr) : MergeInv (mapUpsert acc op) (pr ++ [op]) := by
  obtain ⟨hnd, hkiff, hmem, hdom⟩ := h
  refine ⟨?_, ?_, ?_, ?_⟩
  · rw [mapUpsert_keys]
    by_cases hm : bufKey op ∈ bufKeys acc
    · rw [if_pos hm]; exact hnd
    · rw [if_neg hm]
      simp [List.nodup_append, hnd, hm]
  · intro k
    rw [mapUpsert_keys_mem]
    have hpr : bufKeys (pr ++ [op]) = bufKeys pr ++ [bufKey op] := by
      unfold bufKeys
      simp
    rw [hpr]
    simp [hkiff k]
  · intro x hx
    rcases mapUpsert_mem acc op x hx with h1 | h1
    · exact List.mem_append_left _ (hmem x h1)
    · rw [h1]
      exact List.mem_append_right _ (List.mem_cons_self _ _)
  · intro x hx y hy hky
    rcases List.mem_append.mp hy with hy1 | hy2
    · rcases mapUpsert_mem acc op x hx with h1 | h1
      · exact hdom x h1 y hy1 hky
      · by_cases hm : bufKey op ∈ bufKeys acc
        · obtain ⟨cur, hcur, hkcur⟩ := List.mem_map.mp hm
          have h2 : y.ts ≤ cur.ts :=
            hdom cur hcur y hy1 (by rw [hky, h1, ← hkcur])
          have h3 : cur.ts ≤ x.ts :=
            mapUpsert_dominates acc op hnd x hx cur hcur
              (by rw [hkcur, ← h1])
          omega
        · exfalso
          apply hm
          rw [hkiff (bufKey op)]
          rw [← h1, ← hky]
          exact List.mem_map_of_mem bufKey hy1
    · have hy3 : y = op := by simpa using hy2
      have hop : op.ts ≤ x.ts :=
        mapUpsert_ge_op acc op hnd x hx (by rw [← hky, hy3])
      rw [hy3]
      exact hop

theorem mergeInv_fold : ∀ (rest acc pr : List WireOp), MergeInv acc pr →
    MergeInv (rest.foldl mapUpsert acc) (pr ++ rest) := by
  intro rest
  induction rest with
  | nil =>
    intro acc pr h
    simpa using h
  | cons op rest ih =>
    intro acc pr h
    have h2 := ih (mapUpsert acc op) (pr ++ [op]) (mergeInv_step acc pr op h)
    rw [List.foldl_cons]
    have hl : pr ++ op :: rest = (pr ++ [op]) ++ rest := by simp
    rw [hl]
    exact h2

theorem mergeInv_main (l : List WireOp) :
    MergeInv (l.foldl mapUpsert []) l := by
  have h0 : MergeInv [] [] :=
    ⟨by simp [bufKeys], by intro k; simp [bufKeys],
     by intro x hx; simp at hx, by intro x hx; simp at hx⟩
  have h := mergeInv_fold l [] [] h0
  simpa using h

/-- C9 (buffer merge policy): for every pair of lists of buffered
operations carrying client ids and timestamps, the flush-time merge
`mergeOps` returns a list with exactly one operation per distinct client
id (its id-keys are duplicate-free and cover exactly the input ids), each
kept operation is an input operation whose timestamp dominates every
same-id input (so on a conflict the greater timestamp wins), and the
result is sorted in ascending timestamp order. -/
theorem claim_C9_buffer_merge_policy (existing incoming : List WireOp)
    (_hid : ∀ op ∈ existing ++ incoming, (bufKey op).isSome = true) :
    ((mergeOps existing incoming).map bufKey).Nodup
    ∧ (∀ k, k ∈ (mergeOps existing incoming).map bufKey ↔
        k ∈ (existing ++ incoming).map bufKey)
    ∧ (∀ x ∈ mergeOps existing incoming, x ∈ existing ++ incoming ∧
        ∀ y ∈ existing ++ incoming, bufKey y = bufKey x → y.ts ≤ x.ts)
    ∧ List.Pairwise (fun a b => a.ts ≤ b.ts) (mergeOps existing incoming)
    := by
  obtain ⟨hnd, hkiff, hmem, hdom⟩ := mergeInv_main (existing ++ incoming)
  have hperm : List.Perm (mergeOps existing incoming)
      ((existing ++ incoming).foldl mapUpsert []) :=
    List.mergeSort_perm _ _
  refine ⟨?_, ?_, ?_, ?_⟩
  · exact ((hperm.map bufKey).nodup_iff).mpr hnd
  · intro k
    have h1 := (hperm.map bufKey).mem_iff (a := k)
    rw [h1]
    exact hkiff k
  · intro x hx
    have hx2 : x ∈ (existing ++ incoming).foldl mapUpsert [] :=
      hperm.mem_iff.mp hx
    exact ⟨hmem x hx2, fun y hy hk => hdom x hx2 y hy hk⟩
  · have htrans : ∀ (x y z : WireOp),
        (fun a b : WireOp => decide (a.ts ≤ b.ts)) x y →
        (fun a b : WireOp => decide (a.ts ≤ b.ts)) y z →
        (fun a b : WireOp => decide (a.ts ≤ b.ts)) x z := by
      intro x y z hxy hyz
      simp only [decide_eq_true_eq] at hxy hyz ⊢
      omega
    have htot : ∀ (x y : WireOp),
        ((fun a b : WireOp => decide (a.ts ≤ b.ts)) x y ||
         (fun a b : WireOp => decide (a.ts ≤ b.ts)) y x) = true := by
      intro x y
      simp only [Bool.or_eq_true, decide_eq_true_eq]
      omega
    have hs := List.sorted_mergeSort htrans htot
      ((existing ++ incoming).foldl mapUpsert [])
    exact hs.imp (fun hab => of_decide_eq_true hab)

/-- Witness for C9: merging `[a@5, b@1]` with `[a@9]` keeps one entry per
id, lets the newer `a@9` win the conflict, and sorts by timestamp. -/
theorem claim_C9_witness :
    ((mergeOps
        [⟨some "a", none, none, 5, "p"⟩, ⟨some "b", none, none, 1, "q"⟩]
        [⟨some "a", none, none, 9, "r"⟩]).map bufKey).Nodup
    ∧ (some "a" ∈ (mergeOps
        [⟨some "a", none, none, 5, "p"⟩, ⟨some "b", none, none, 1, "q"⟩]
        [⟨some "a", none, none, 9, "r"⟩]).map bufKey ↔
       some "a" ∈ ([(⟨some "a", none, none, 5, "p"⟩ : WireOp),
        (⟨some "b", none, none, 1, "q"⟩ : WireOp)] ++
        [(⟨some "a", none, none, 9, "r"⟩ : WireOp)]).map bufKey)
    ∧ List.Pairwise (fun a b : WireOp => a.ts ≤ b.ts) (mergeOps
        [⟨some "a", none, none, 5, "p"⟩, ⟨some "b", none, none, 1, "q"⟩]
        [⟨some "a", none, none, 9, "r"⟩]) := by
  have h := claim_C9_buffer_merge_policy
    [⟨some "a", none, none, 5, "p"⟩, ⟨some "b", none, none, 1, "q"⟩]
    [⟨some "a", none, none, 9, "r"⟩] (by decide)
  exact ⟨h.1, h.2.1 (some "a"), h.2.2.2⟩
